import Mathlib

/-
Verification of the creed promise library core (`src/Promise.js`) against its
natural-language specification.

The embedding models JavaScript values as an inductive `JSVal`, a handler's
settlement state as `DState`, and the combinator machinery (`then`/`Then`,
`runAction`, `All`/`SettleAt`, `Race`/`visitRemaining`, `Merge`, and the
`all`/`race` entry-point guards) as executable Lean functions translated
directly from the source.  The handler base layer (`Deferred`, `Never`,
the state bitmask) lives in modules that are not part of the provided
source tree, so those few primitives are modelled from the specification
(each such definition is marked `Modelled from the spec:`).
-/

set_option autoImplicit false

namespace Creed

/-- JavaScript values, as far as the promise core observes them:
plain data (`undef`, `num`, `str`), `TypeError` objects created by the
library, and arrays (used for `all`'s results). -/
inductive JSVal where
  | undef
  | num (n : Nat)
  | str (s : String)
  | typeError (msg : String)
  | arr (xs : List JSVal)

/-- Modelled from the spec: the settlement state of a handler
(`state.js` / `handlers.js` are not in the provided source).  Per spec §3 a
handler is pending, or settled fulfilled with a value, or settled rejected
with a reason; settlement is monotonic and irreversible. -/
inductive DState where
  | pending
  | fulfilled (v : JSVal)
  | rejected (e : JSVal)

namespace DState

/-- Modelled from the spec: `Deferred.resolve(x)` for a plain
(non-thenable) `x`: settles a pending handler as fulfilled with `x`; a
no-op on an already-settled handler (spec §3: idempotent settlement).
Thenable chaining (spec §4.2 step 5) is outside this plain-value model. -/
def resolveVal : DState → JSVal → DState
  | .pending, v => .fulfilled v
  | s, _ => s

/-- Modelled from the spec: `Deferred.fulfill(x)`: direct fulfillment of a
pending handler, no-op once settled. -/
def fulfillVal : DState → JSVal → DState
  | .pending, v => .fulfilled v
  | s, _ => s

/-- Modelled from the spec: `Deferred.reject(e)`: settles a pending
handler as rejected with reason `e`; a no-op once settled. -/
def rejectVal : DState → JSVal → DState
  | .pending, e => .rejected e
  | s, _ => s

/-- Modelled from the spec: `Deferred.become(h)`: a pending handler
permanently adopts the other handler's state; a no-op once settled. -/
def become : DState → DState → DState
  | .pending, h => h
  | s, _ => s

/-- The `value` slot of a settled handler: a `Fulfilled` handler stores its
value there and a `Rejected` handler stores its reason there
(spec §3; read by `runAction` as `handler.value`). -/
def value : DState → JSVal
  | .pending => .undef
  | .fulfilled v => v
  | .rejected e => e

/-- `isPending()` — the PENDING bit of `state()` is set. -/
def isPendingB : DState → Bool
  | .pending => true
  | _ => false

/-- `(state() & FULFILLED) > 0` in the bitmask encoding of `state.js`. -/
def isFulfilledB : DState → Bool
  | .fulfilled _ => true
  | _ => false

/-- `(state() & REJECTED) > 0` in the bitmask encoding of `state.js`. -/
def isRejectedB : DState → Bool
  | .rejected _ => true
  | _ => false

end DState

/-- A `then` callback: JavaScript callbacks may return normally
(`Except.ok`) or throw (`Except.error`).  A callback argument that is not a
function is modelled as `none` at the use sites. -/
def Fn : Type := JSVal → Except JSVal JSVal

/-- `runAction(f, handler, next)` from `Promise.js`: if `f` is not a
function, `next.become(handler)` and report `false` (rejection not
consumed); otherwise run `tryCatchNext(f, handler.value, next)` —
`next.resolve(f(handler.value))`, or `next.reject(e)` when `f` throws —
and report `true`.  Returns the updated state of `next` and the boolean. -/
def runAction (f : Option Fn) (handler : DState) (next : DState) : DState × Bool :=
  match f with
  | none => (next.become handler, false)
  | some g =>
    match g handler.value with
    | .ok x => (next.resolveVal x, true)
    | .error e => (next.rejectVal e, true)

/-- The `Then` continuation from `Promise.js`: holds the two `then`
callbacks (the fresh `Deferred` it drives is passed explicitly to the
hooks below, since the embedding is stateless). -/
structure ThenC where
  f : Option Fn
  r : Option Fn

/-- `Then.prototype.fulfilled(handler)`: `runAction(this.f, handler, this.next)`. -/
def ThenC.fulfilledHook (t : ThenC) (handler next : DState) : DState × Bool :=
  runAction t.f handler next

/-- `Then.prototype.rejected(handler)`: `runAction(this.r, handler, this.next)`. -/
def ThenC.rejectedHook (t : ThenC) (handler next : DState) : DState × Bool :=
  runAction t.r handler next

/-- Result of `then(f, r, h)`: either the source handler itself is
returned unchanged (short-circuit, no allocation), or a fresh pending
`Deferred` is allocated with a `Then(f, r, deferred)` continuation
subscribed to the source. -/
inductive ThenResult where
  | reused (h : DState)
  | fresh (t : ThenC)

/-- `then(f, r, h)` from `Promise.js`: if the source is fulfilled and `f`
is not a function, or rejected and `r` is not a function, return `h`
itself; otherwise allocate a new `Deferred` and subscribe `new Then(f, r,
handler)`. -/
def thenImpl (f r : Option Fn) (h : DState) : ThenResult :=
  if (h.isFulfilledB && f.isNone) || (h.isRejectedB && r.isNone) then
    .reused h
  else
    .fresh ⟨f, r⟩

/-- One element of the iterable passed to `all`/`race`/`merge`, classified
the way the source classifies it: a non-thenable immediate value
(`maybeThenable(x)` false), or a thenable whose handler is already
fulfilled or rejected, or a thenable whose handler is still pending.
Handler-backed inputs carry an identity `id` standing for the handler
object's reference identity (used by `visitRemaining`'s `h !== handler`
test and to name which pending handler a later settlement event is for). -/
inductive Input where
  | val (v : JSVal)
  | hFulfilled (id : Nat) (v : JSVal)
  | hRejected (id : Nat) (e : JSVal)
  | hPending (id : Nat)

/-- `true` on the `hRejected` classification. -/
def Input.isRej : Input → Bool
  | .hRejected _ _ => true
  | _ => false

/-- State of an `All` (or `Merge`) deferred mid-run: the `pending` count,
the `results` array (`none` = still-empty slot of `new Array(n)`), the
output handler's settlement state, the `SettleAt` continuations attached
so far (`(index, handler id)` in attachment order), and the indices the
`resolveAll` loop has visited (used to express which inputs were
observed at all). -/
structure AllSt where
  pending : Nat
  results : List (Option JSVal)
  dstate : DState
  waiting : List (Nat × Nat)
  visited : List Nat

/-- The `fulfill` implementation a scan runs with.  `All` uses its
inherited `Deferred.fulfill`; `Merge` overrides `fulfill`, and because
`this.f` is assigned only after `super(promises)` returns, the override's
behavior differs between the constructor scan and later settlements —
hence `fulfill` is a parameter of the scan rather than a fixed function. -/
def FulfillImpl : Type := DState → List (Option JSVal) → DState

/-- `All.prototype.check(results)`: `if (this.isPending() && this.pending === 0) this.fulfill(results)`. -/
def check (fI : FulfillImpl) (st : AllSt) : AllSt :=
  if st.dstate.isPendingB && st.pending == 0 then
    { st with dstate := fI st.dstate st.results }
  else
    st

/-- `All.prototype.fulfillAt(results, i, x)`: `results[i] = x; this.pending--; this.check(results)`. -/
def fulfillAt (fI : FulfillImpl) (st : AllSt) (i : Nat) (x : JSVal) : AllSt :=
  check fI { st with results := st.results.set i (some x), pending := st.pending - 1 }

/-- `All.prototype.rejectAt(handler)`: `this.pending = 0; this.become(handler)`
where `handler` is the rejected input's handler. -/
def rejectAt (st : AllSt) (e : JSVal) : AllSt :=
  { st with pending := 0, dstate := st.dstate.become (.rejected e) }

/-- One iteration of the `for (let x of array)` body in
`All.prototype.resolveAll` (including `handleAt`'s three-way dispatch on
the handler's state), at index `i`. -/
def stepInput (fI : FulfillImpl) (st : AllSt) (i : Nat) (x : Input) : AllSt :=
  let st := { st with visited := st.visited ++ [i] }
  match x with
  | .val v => fulfillAt fI st i v
  | .hFulfilled _ v => fulfillAt fI st i v
  | .hRejected _ e => rejectAt st e
  | .hPending id => { st with waiting := st.waiting ++ [(i, id)] }

/-- The `for (let x of array)` loop of `All.prototype.resolveAll`,
with its `if (this.pending === 0) break;` early exit. -/
def scanLoop (fI : FulfillImpl) (st : AllSt) (i : Nat) : List Input → AllSt
  | [] => st
  | x :: rest =>
    let st' := stepInput fI st i x
    if st'.pending == 0 then st' else scanLoop fI st' (i + 1) rest

/-- The state of `new All(array)` right after its constructor:
`pending = array.length`, `results = new Array(this.pending)`, then the
`resolveAll` loop followed by the trailing `this.check(results)`. -/
def resolveAll (fI : FulfillImpl) (inputs : List Input) : AllSt :=
  check fI
    (scanLoop fI
      { pending := inputs.length
        results := List.replicate inputs.length none
        dstate := .pending
        waiting := []
        visited := [] }
      0 inputs)

/-- `All`'s inherited `Deferred.fulfill(results)` (the results array is a
JS array whose empty slots read as `undefined`). -/
def allFulfill : FulfillImpl :=
  fun d results => d.fulfillVal (.arr (results.map (fun o => o.getD .undef)))

/-- `SettleAt.prototype.fulfilled(handler)`:
`this.all.fulfillAt(this.results, this.index, handler.value); return true`. -/
def settleAtFulfilled (fI : FulfillImpl) (st : AllSt) (i : Nat) (v : JSVal) : AllSt × Bool :=
  (fulfillAt fI st i v, true)

/-- `SettleAt.prototype.rejected(handler)`:
`this.all.rejectAt(handler); return true`. -/
def settleAtRejected (st : AllSt) (e : JSVal) : AllSt × Bool :=
  (rejectAt st e, true)

/-- Run the `SettleAt` continuation for slot `i` on the settlement
`outcome` of the handler it was subscribed to. -/
def settleOne (fI : FulfillImpl) (st : AllSt) (i : Nat) (outcome : Except JSVal JSVal) : AllSt :=
  match outcome with
  | .ok v => (settleAtFulfilled fI st i v).1
  | .error e => (settleAtRejected st e).1

/-- A pending input handler `id` settles with `outcome`: all `SettleAt`
continuations subscribed to that handler fire in attachment order and are
consumed. -/
def settleEvent (fI : FulfillImpl) (st : AllSt) (id : Nat) (outcome : Except JSVal JSVal) : AllSt :=
  let fired := st.waiting.filter (fun p => p.2 == id)
  let st' := { st with waiting := st.waiting.filter (fun p => p.2 != id) }
  fired.foldl (fun s p => settleOne fI s p.1 outcome) st'

/-- A complete run of an `All`-style deferred: the constructor scan over
`inputs` followed by the given sequence of settlement events of pending
input handlers (`(handler id, outcome)` in settlement order). -/
def runAllEvents (fI : FulfillImpl) (inputs : List Input)
    (events : List (Nat × Except JSVal JSVal)) : AllSt :=
  events.foldl (fun s e => settleEvent fI s e.1 e.2) (resolveAll fI inputs)

/-- A merge function: receives the ordered results and either returns
normally or throws. -/
def MergeFn : Type := List JSVal → Except JSVal JSVal

/-- `Merge.prototype.fulfill(results)` as it runs *during*
`super(promises)`: `this.f` has not been assigned yet (it is set only
after the `All` constructor returns), so `this.f.apply(this.c, results)`
throws a `TypeError`, which the `try`/`catch` turns into `this.reject(e)`. -/
def mergeFulfillCtor : FulfillImpl :=
  fun d _ => d.rejectVal (.typeError "this.f is undefined")

/-- `Merge.prototype.fulfill(results)` as it runs after the constructor
has returned (e.g. from a `SettleAt` continuation): `this.f` is now `g`;
`try { this.resolve(this.f.apply(this.c, results)) } catch (e) { this.reject(e) }`. -/
def mergeFulfillPost (g : MergeFn) : FulfillImpl :=
  fun d results =>
    match g (results.map (fun o => o.getD .undef)) with
    | .ok x => d.resolveVal x
    | .error e => d.rejectVal e

/-- A complete run of `new Merge(f, c, promises)` (the handler behind
`merge(f, ...args)` and `lift(f)`): the `All` constructor scan runs with
`this.f` still undefined, and only later settlement events see `g`. -/
def runMerge (g : MergeFn) (inputs : List Input)
    (events : List (Nat × Except JSVal JSVal)) : AllSt :=
  events.foldl (fun s e => settleEvent (mergeFulfillPost g) s e.1 e.2)
    (resolveAll mergeFulfillCtor inputs)

/-- The continuations `Race` attaches to input handlers: the `Race`
deferred itself (`h.when(this)`) or the shared `silenceRejection`
sentinel. -/
inductive RCont where
  | raceSelf
  | silence

/-- The `rejected` hook of a continuation attached by `Race`, applied to
the race's own output state `d` and the rejected input handler `h`:
`Race.prototype.rejected` does `this.become(handler); return true`, and
`silenceRejection.rejected()` just returns `true`.  Both consume the
rejection. -/
def RCont.rejectedRun : RCont → DState → DState → DState × Bool
  | .raceSelf, d, h => (d.become h, true)
  | .silence, d, _ => (d, true)

/-- State built by `Race.prototype.resolveRace`: the race output handler's
settlement state, plus the continuations attached to input slots
(`(index, continuation)` in attachment order). -/
structure RaceSt where
  dstate : DState
  attached : List (Nat × RCont)

/-- `visitRemaining(promises, start, handler)`: for each remaining input,
attach `silenceRejection` unless it is the winning handler itself
(`h !== handler`, i.e. same identity) or its state has the FULFILLED bit
set (`val` and `hFulfilled` inputs; `handlerFor` of a plain value is a
fresh `Fulfilled` handler).  `winner = none` models the `void 0` argument
passed when the race was won by a plain value. -/
def visitFrom (winner : Option Nat) : Nat → List Input → List (Nat × RCont)
  | _, [] => []
  | j, x :: rest =>
    match x with
    | .val _ => visitFrom winner (j + 1) rest
    | .hFulfilled _ _ => visitFrom winner (j + 1) rest
    | .hRejected id _ =>
      if winner == some id then visitFrom winner (j + 1) rest
      else (j, .silence) :: visitFrom winner (j + 1) rest
    | .hPending id =>
      if winner == some id then visitFrom winner (j + 1) rest
      else (j, .silence) :: visitFrom winner (j + 1) rest

/-- The `for (let x of array)` loop of `Race.prototype.resolveRace`:
a plain value wins at once (`visitRemaining(array, i+1, void 0)`, then
`this.fulfill(x)`, then `break`); a settled thenable wins
(`visitRemaining(array, i+1, h)`, then `this.become(h)`, then `break`);
a pending thenable gets `h.when(this)` and the loop continues. -/
def raceLoop : Nat → List Input → RaceSt → RaceSt
  | _, [], st => st
  | i, x :: rest, st =>
    match x with
    | .val v =>
      { dstate := st.dstate.fulfillVal v
        attached := st.attached ++ visitFrom none (i + 1) rest }
    | .hFulfilled id v =>
      { dstate := st.dstate.become (.fulfilled v)
        attached := st.attached ++ visitFrom (some id) (i + 1) rest }
    | .hRejected id e =>
      { dstate := st.dstate.become (.rejected e)
        attached := st.attached ++ visitFrom (some id) (i + 1) rest }
    | .hPending _ =>
      raceLoop (i + 1) rest { st with attached := st.attached ++ [(i, .raceSelf)] }

/-- The state of `new Race(array)` right after its constructor. -/
def raceScan (inputs : List Input) : RaceSt :=
  raceLoop 0 inputs { dstate := .pending, attached := [] }

/-- The argument passed to `all()`/`race()`, classified the way the
guard `typeof promises !== 'object' || promises === null` and the
subsequent `for..of` iteration observe it: `null`; a primitive whose
`typeof` is not `'object'` (number, string, boolean, undefined, symbol);
a function; a non-null object that is **not** iterable; or an iterable
object yielding the given elements (with `length` equal to the number of
elements, as for an array). -/
inductive JSInputVal where
  | jsNull
  | primitive (v : JSVal)
  | func
  | nonIterableObj
  | iterable (xs : List Input)

/-- The observable outcome of calling a combinator entry point:
it throws synchronously, or returns a promise already rejected with the
guard's `TypeError`, or returns the `never` promise, or returns a promise
running the given combinator state. -/
inductive CombOutcome where
  | throws
  | rejectedTypeError (msg : String)
  | neverP
  | allRun (st : AllSt)
  | raceRun (st : RaceSt)

/-- `all(promises)` from `Promise.js`: the `typeof`-guard turns `null` and
non-object primitives (and functions) into a rejected promise; any other
object reaches `new All(promises)`, whose `for..of` over a non-iterable
object throws a `TypeError` synchronously out of `all()`. -/
def allJS : JSInputVal → CombOutcome
  | .jsNull => .rejectedTypeError "non-iterable passed to all()"
  | .primitive _ => .rejectedTypeError "non-iterable passed to all()"
  | .func => .rejectedTypeError "non-iterable passed to all()"
  | .nonIterableObj => .throws
  | .iterable xs => .allRun (resolveAll allFulfill xs)

/-- `race(promises)` from `Promise.js`: same guard as `all`; an empty
input returns the shared `never()` promise; otherwise `new Race(promises)`
(again, a non-iterable object makes the constructor throw). -/
def raceJS : JSInputVal → CombOutcome
  | .jsNull => .rejectedTypeError "non-iterable passed to race()"
  | .primitive _ => .rejectedTypeError "non-iterable passed to race()"
  | .func => .rejectedTypeError "non-iterable passed to race()"
  | .nonIterableObj => .throws
  | .iterable xs =>
    if xs.length == 0 then .neverP else .raceRun (raceScan xs)

/-- Modelled from the spec: the `Never` handler (from the missing
handlers module): its state is permanently PENDING. -/
def neverState : DState := .pending

/-- Modelled from the spec: `Never.when` never invokes continuations
(spec §3: "`when` never invokes continuations"); the result is the list
of continuations that ever get invoked — always empty. -/
def neverInvoked (_ks : List RCont) : List RCont := []

/-! ## Analysis helpers

Closed forms for what the `All` constructor scan computes, used to state
and prove the aggregate-combinator claims. -/

/-- The handler ids of the pending inputs, in input order. -/
def pendingIds (inputs : List Input) : List Nat :=
  inputs.filterMap fun x =>
    match x with
    | .hPending id => some id
    | _ => none

/-- The value each input eventually contributes, where `env id` is the
value the pending handler `id` eventually fulfills with. -/
def finalVal (env : Nat → JSVal) : Input → JSVal
  | .val v => v
  | .hFulfilled _ v => v
  | .hRejected _ e => e
  | .hPending id => env id

/-- The `SettleAt` subscriptions the scan creates, as `(index, id)` pairs,
for a scan whose first element sits at index `base`. -/
def scanWaiting (base : Nat) : List Input → List (Nat × Nat)
  | [] => []
  | x :: rest =>
    match x with
    | .hPending id => (base, id) :: scanWaiting (base + 1) rest
    | _ => scanWaiting (base + 1) rest

/-- The results-array writes the scan performs: already-available values
are stored at their index, pending slots are left untouched. -/
def applyFills : List (Option JSVal) → Nat → List Input → List (Option JSVal)
  | rs, _, [] => rs
  | rs, i, .val v :: rest => applyFills (rs.set i (some v)) (i + 1) rest
  | rs, i, .hFulfilled _ v :: rest => applyFills (rs.set i (some v)) (i + 1) rest
  | rs, i, .hPending _ :: rest => applyFills rs (i + 1) rest
  | rs, i, .hRejected _ _ :: rest => applyFills rs (i + 1) rest

/-- `[i, i+1, ..., i+n-1]`: the indices a scan visits. -/
def idxFrom : Nat → Nat → List Nat
  | _, 0 => []
  | i, n + 1 => i :: idxFrom (i + 1) n

/-- Closed form of the `resolveAll` loop on a rejection-free input
segment: every already-available value is written at its index, every
pending input gets a `SettleAt` subscription, all indices are visited, and
the output fulfills during the scan exactly when nothing is left pending. -/
theorem scanLoop_noreject (fI : FulfillImpl) :
    ∀ (rest : List Input) (st : AllSt) (i : Nat),
      (∀ x ∈ rest, x.isRej = false) →
      st.dstate = DState.pending →
      st.pending = rest.length + st.waiting.length →
      scanLoop fI st i rest =
        { pending := st.waiting.length + (scanWaiting i rest).length
          results := applyFills st.results i rest
          waiting := st.waiting ++ scanWaiting i rest
          visited := st.visited ++ idxFrom i rest.length
          dstate :=
            if 0 < rest.length ∧ st.waiting.length + (scanWaiting i rest).length = 0 then
              fI DState.pending (applyFills st.results i rest)
            else DState.pending } := by
  intro rest
  induction rest with
  | nil =>
    intro st i _ hd hp
    simp only [List.length_nil, Nat.zero_add] at hp
    simp only [scanLoop, scanWaiting, applyFills, idxFrom, List.length_nil,
      List.append_nil, Nat.add_zero, Nat.lt_irrefl, false_and, if_false, ← hd, ← hp]
  | cons x rest' ih =>
    intro st i hnr hd hp
    have hnr' : ∀ y ∈ rest', y.isRej = false := fun y hy => hnr y (List.mem_cons_of_mem x hy)
    simp only [List.length_cons] at hp
    cases x with
    | hRejected id e =>
      have := hnr (.hRejected id e) (List.mem_cons_self _ _)
      simp [Input.isRej] at this
    | val v =>
      simp only [scanLoop, stepInput, fulfillAt, check, hd, DState.isPendingB,
        Bool.true_and]
      have hp' : st.pending - 1 = rest'.length + st.waiting.length := by omega
      by_cases hz : rest'.length + st.waiting.length = 0
      · have hr0 : rest' = [] := List.length_eq_zero.mp (by omega)
        have hw0 : st.waiting = [] := List.length_eq_zero.mp (by omega)
        subst hr0
        have hp0 : st.pending - 1 = 0 := by omega
        have hc : (st.pending - 1 == 0) = true := by simp [hp0]
        rw [if_pos hc]
        simp [hc, hp0, scanWaiting, applyFills, idxFrom, hw0]
      · have hc : (st.pending - 1 == 0) = false := by simp [hp', hz]
        rw [if_neg (by simp [hc]), if_neg (by simp [hc])]
        rw [ih { pending := st.pending - 1, results := st.results.set i (some v),
                 dstate := DState.pending, waiting := st.waiting,
                 visited := st.visited ++ [i] } (i + 1) hnr' rfl hp']
        congr 1
        · refine if_congr ?_ rfl rfl
          simp only [scanWaiting, List.length_cons]
          constructor
          · rintro ⟨h1, h2⟩; exact ⟨by omega, h2⟩
          · rintro ⟨h1, h2⟩; exact ⟨by omega, h2⟩
        · simp [idxFrom]
    | hFulfilled id v =>
      simp only [scanLoop, stepInput, fulfillAt, check, hd, DState.isPendingB,
        Bool.true_and]
      have hp' : st.pending - 1 = rest'.length + st.waiting.length := by omega
      by_cases hz : rest'.length + st.waiting.length = 0
      · have hr0 : rest' = [] := List.length_eq_zero.mp (by omega)
        have hw0 : st.waiting = [] := List.length_eq_zero.mp (by omega)
        subst hr0
        have hp0 : st.pending - 1 = 0 := by omega
        have hc : (st.pending - 1 == 0) = true := by simp [hp0]
        rw [if_pos hc]
        simp [hc, hp0, scanWaiting, applyFills, idxFrom, hw0]
      · have hc : (st.pending - 1 == 0) = false := by simp [hp', hz]
        rw [if_neg (by simp [hc]), if_neg (by simp [hc])]
        rw [ih { pending := st.pending - 1, results := st.results.set i (some v),
                 dstate := DState.pending, waiting := st.waiting,
                 visited := st.visited ++ [i] } (i + 1) hnr' rfl hp']
        congr 1
        · refine if_congr ?_ rfl rfl
          simp only [scanWaiting, List.length_cons]
          constructor
          · rintro ⟨h1, h2⟩; exact ⟨by omega, h2⟩
          · rintro ⟨h1, h2⟩; exact ⟨by omega, h2⟩
        · simp [idxFrom]
    | hPending id =>
      simp only [scanLoop, stepInput]
      rw [if_neg (by simp; omega)]
      rw [ih { st with waiting := st.waiting ++ [(i, id)], visited := st.visited ++ [i] }
        (i + 1) hnr' hd
        (by simp only [List.length_append, List.length_cons, List.length_nil]; omega)]
      congr 1
      · simp only [List.length_append, List.length_cons, List.length_nil, scanWaiting]
        omega
      · refine if_congr ?_ rfl rfl
        simp only [scanWaiting, List.length_append, List.length_cons, List.length_nil]
        constructor
        · rintro ⟨h1, h2⟩; omega
        · rintro ⟨h1, h2⟩; omega
      · simp [scanWaiting]
      · simp [idxFrom]

/-- Closed form of `new All(inputs)` / `new Merge(...)` on rejection-free
inputs, given that the `fulfill` implementation settles a pending handler
(true of `All`'s fulfill and of both `Merge` phases). -/
theorem resolveAll_noreject (fI : FulfillImpl) (inputs : List Input)
    (hnr : ∀ x ∈ inputs, x.isRej = false)
    (hset : ∀ rs, (fI DState.pending rs).isPendingB = false) :
    resolveAll fI inputs =
      { pending := (scanWaiting 0 inputs).length
        results := applyFills (List.replicate inputs.length none) 0 inputs
        waiting := scanWaiting 0 inputs
        visited := idxFrom 0 inputs.length
        dstate :=
          if (scanWaiting 0 inputs).length = 0 then
            fI DState.pending (applyFills (List.replicate inputs.length none) 0 inputs)
          else DState.pending } := by
  unfold resolveAll
  rw [scanLoop_noreject fI inputs _ 0 hnr rfl (by simp)]
  rcases Nat.eq_zero_or_pos inputs.length with hlen | hlen
  · have h0 : inputs = [] := List.length_eq_zero.mp hlen
    subst h0
    simp [check, scanWaiting, applyFills, idxFrom, DState.isPendingB]
  · by_cases hs : (scanWaiting 0 inputs).length = 0
    · rw [if_pos (And.intro hlen (by simp [hs]))]
      simp [check, hset, hs]
    · rw [if_neg (by simp [hs])]
      simp [check, DState.isPendingB, hs]

/-- What the `resolveAll` loop does when it reaches a rejected input after
a rejection-free prefix: the output becomes that rejection, the loop
breaks (`pending = 0`), the inputs after the rejecting one are never
visited, and only the prefix keeps its writes and `SettleAt`
subscriptions. -/
theorem scanLoop_first_reject (fI : FulfillImpl) :
    ∀ (pre : List Input) (st : AllSt) (i : Nat) (id : Nat) (e : JSVal) (post : List Input),
      (∀ x ∈ pre, x.isRej = false) →
      st.dstate = DState.pending →
      st.pending = (pre.length + 1 + post.length) + st.waiting.length →
      scanLoop fI st i (pre ++ .hRejected id e :: post) =
        { pending := 0
          results := applyFills st.results i pre
          waiting := st.waiting ++ scanWaiting i pre
          visited := st.visited ++ idxFrom i (pre.length + 1)
          dstate := DState.rejected e } := by
  intro pre
  induction pre with
  | nil =>
    intro st i id e post _ hd hp
    simp [scanLoop, stepInput, rejectAt, hd, DState.become, applyFills, scanWaiting, idxFrom]
  | cons x pre' ih =>
    intro st i id e post hnr hd hp
    have hnr' : ∀ y ∈ pre', y.isRej = false := fun y hy => hnr y (List.mem_cons_of_mem x hy)
    simp only [List.length_cons] at hp
    cases x with
    | hRejected id0 e0 =>
      have := hnr (.hRejected id0 e0) (List.mem_cons_self _ _)
      simp [Input.isRej] at this
    | val v =>
      rw [List.cons_append]
      simp only [scanLoop, stepInput, fulfillAt, check, hd,
        DState.isPendingB, Bool.true_and]
      have hc : (st.pending - 1 == 0) = false := by simp [hp]; omega
      rw [if_neg (by simp [hc]), if_neg (by simp [hc])]
      rw [ih { pending := st.pending - 1, results := st.results.set i (some v),
               dstate := DState.pending, waiting := st.waiting,
               visited := st.visited ++ [i] } (i + 1) id e post hnr' rfl (by simp; omega)]
      congr 1
      simp [idxFrom]
    | hFulfilled idf v =>
      rw [List.cons_append]
      simp only [scanLoop, stepInput, fulfillAt, check, hd,
        DState.isPendingB, Bool.true_and]
      have hc : (st.pending - 1 == 0) = false := by simp [hp]; omega
      rw [if_neg (by simp [hc]), if_neg (by simp [hc])]
      rw [ih { pending := st.pending - 1, results := st.results.set i (some v),
               dstate := DState.pending, waiting := st.waiting,
               visited := st.visited ++ [i] } (i + 1) id e post hnr' rfl (by simp; omega)]
      congr 1
      simp [idxFrom]
    | hPending idp =>
      rw [List.cons_append]
      simp only [scanLoop, stepInput]
      rw [if_neg (by simp; omega)]
      rw [ih { st with waiting := st.waiting ++ [(i, idp)], visited := st.visited ++ [i] }
        (i + 1) id e post hnr' hd (by simp; omega)]
      congr 1
      · simp [scanWaiting]
      · simp [idxFrom]

/-- In a waiting list whose handler ids are distinct, the id determines
the slot index. -/
theorem pair_snd_unique (w : List (Nat × Nat)) (hnd : (w.map Prod.snd).Nodup)
    (i j id : Nat) (hi : (i, id) ∈ w) (hj : (j, id) ∈ w) : i = j :=
  congrArg Prod.fst (List.inj_on_of_nodup_map hnd hi hj rfl)

/-- With distinct handler ids, firing handler `id` selects exactly its one
`SettleAt` entry. -/
theorem filter_snd_singleton : ∀ (w : List (Nat × Nat)),
    (w.map Prod.snd).Nodup →
    ∀ (i id : Nat), (i, id) ∈ w → w.filter (fun p => p.2 == id) = [(i, id)] := by
  intro w
  induction w with
  | nil => intro _ i id hi; cases hi
  | cons p w' ih =>
    intro hnd i id hi
    simp only [List.map_cons, List.nodup_cons] at hnd
    rcases List.mem_cons.mp hi with hih | hit
    · subst hih
      rw [List.filter_cons, if_pos (by simp)]
      rw [List.filter_eq_nil_iff.mpr (fun q hq => by
        simp only [beq_iff_eq]
        intro h2
        apply hnd.1
        have hm := List.mem_map_of_mem Prod.snd hq
        rw [h2] at hm
        exact hm)]
    · have hp2 : ¬ ((p.2 == id) = true) := by
        simp only [beq_iff_eq]
        intro h2
        apply hnd.1
        rw [h2]
        exact List.mem_map_of_mem Prod.snd hit
      rw [List.filter_cons, if_neg hp2]
      exact ih hnd.2 i id hit

/-- Dropping handler `id`'s entries commutes with projecting the ids. -/
theorem filter_not_snd_map_snd : ∀ (w : List (Nat × Nat)) (id : Nat),
    (w.filter (fun p => p.2 != id)).map Prod.snd
      = (w.map Prod.snd).filter (fun x => x != id) := by
  intro w id
  induction w with
  | nil => rfl
  | cons p w' ih =>
    rw [List.filter_cons, List.map_cons, List.filter_cons]
    by_cases h : (p.2 != id) = true
    · rw [if_pos h, if_pos h, List.map_cons, ih]
    · rw [if_neg h, if_neg h, ih]

/-- With distinct ids and distinct indices, dropping handler `id`'s entry
removes exactly slot `i` from the index list. -/
theorem filter_not_snd_map_fst : ∀ (w : List (Nat × Nat)),
    (w.map Prod.snd).Nodup → (w.map Prod.fst).Nodup →
    ∀ (i id : Nat), (i, id) ∈ w →
    (w.filter (fun p => p.2 != id)).map Prod.fst
      = (w.map Prod.fst).filter (fun x => x != i) := by
  intro w
  induction w with
  | nil => intro _ _ i id hi; cases hi
  | cons p w' ih =>
    intro hs hf i id hi
    simp only [List.map_cons, List.nodup_cons] at hs hf
    rcases List.mem_cons.mp hi with hih | hit
    · subst hih
      rw [List.filter_cons, if_neg (by simp), List.map_cons, List.filter_cons,
        if_neg (by simp)]
      rw [List.filter_eq_self.mpr (fun q hq => by
        simp only [bne_iff_ne, ne_eq]
        intro h2
        apply hs.1
        have hm := List.mem_map_of_mem Prod.snd hq
        rw [h2] at hm
        exact hm)]
      rw [List.filter_eq_self.mpr (fun x hx => by
        simp only [bne_iff_ne, ne_eq]
        intro h2
        apply hf.1
        rw [h2] at hx
        exact hx)]
    · have h2 : (p.2 != id) = true := by
        simp only [bne_iff_ne, ne_eq]
        intro h
        apply hs.1
        rw [h]
        exact List.mem_map_of_mem Prod.snd hit
      have h1 : (p.1 != i) = true := by
        simp only [bne_iff_ne, ne_eq]
        intro h
        apply hf.1
        rw [h]
        exact List.mem_map_of_mem Prod.fst hit
      rw [List.filter_cons, if_pos h2, List.map_cons, List.map_cons, List.filter_cons,
        if_pos h1, ih hs.2 hf.2 i id hit]

/-- `scanWaiting` records exactly the pending inputs with their indices. -/
theorem scanWaiting_mem : ∀ (inputs : List Input) (b j id : Nat),
    (j, id) ∈ scanWaiting b inputs ↔
      ∃ k, j = b + k ∧ inputs.get? k = some (.hPending id) := by
  intro inputs
  induction inputs with
  | nil =>
    intro b j id
    simp [scanWaiting]
  | cons x rest ih =>
    intro b j id
    cases x with
    | hPending id0 =>
      simp only [scanWaiting, List.mem_cons, Prod.mk.injEq, ih (b + 1)]
      constructor
      · rintro (⟨rfl, rfl⟩ | ⟨k, rfl, hk⟩)
        · exact ⟨0, by omega, rfl⟩
        · exact ⟨k + 1, by omega, hk⟩
      · rintro ⟨k, rfl, hk⟩
        cases k with
        | zero =>
          simp only [List.get?_cons_zero, Option.some.injEq, Input.hPending.injEq] at hk
          exact Or.inl ⟨by omega, hk.symm⟩
        | succ k' => exact Or.inr ⟨k', by omega, hk⟩
    | val v =>
      simp only [scanWaiting, ih (b + 1)]
      constructor
      · rintro ⟨k, rfl, hk⟩
        exact ⟨k + 1, by omega, hk⟩
      · rintro ⟨k, rfl, hk⟩
        cases k with
        | zero => simp at hk
        | succ k' => exact ⟨k', by omega, hk⟩
    | hFulfilled id0 v =>
      simp only [scanWaiting, ih (b + 1)]
      constructor
      · rintro ⟨k, rfl, hk⟩
        exact ⟨k + 1, by omega, hk⟩
      · rintro ⟨k, rfl, hk⟩
        cases k with
        | zero => simp at hk
        | succ k' => exact ⟨k', by omega, hk⟩
    | hRejected id0 e =>
      simp only [scanWaiting, ih (b + 1)]
      constructor
      · rintro ⟨k, rfl, hk⟩
        exact ⟨k + 1, by omega, hk⟩
      · rintro ⟨k, rfl, hk⟩
        cases k with
        | zero => simp at hk
        | succ k' => exact ⟨k', by omega, hk⟩

/-- Scan subscriptions live at indices at or beyond the scan base. -/
theorem scanWaiting_fst_ge : ∀ (inputs : List Input) (b : Nat) (p : Nat × Nat),
    p ∈ scanWaiting b inputs → b ≤ p.1 := by
  intro inputs
  induction inputs with
  | nil => intro b p hp; cases hp
  | cons x rest ih =>
    intro b p hp
    cases x with
    | hPending id0 =>
      rcases List.mem_cons.mp hp with rfl | hp'
      · simp
      · exact Nat.le_of_succ_le (ih (b + 1) p hp')
    | val v => exact Nat.le_of_succ_le (ih (b + 1) p hp)
    | hFulfilled id0 v => exact Nat.le_of_succ_le (ih (b + 1) p hp)
    | hRejected id0 e => exact Nat.le_of_succ_le (ih (b + 1) p hp)

/-- The scan never subscribes two continuations at the same index. -/
theorem scanWaiting_fst_nodup : ∀ (inputs : List Input) (b : Nat),
    ((scanWaiting b inputs).map Prod.fst).Nodup := by
  intro inputs
  induction inputs with
  | nil => intro b; simp [scanWaiting]
  | cons x rest ih =>
    intro b
    cases x with
    | hPending id0 =>
      simp only [scanWaiting, List.map_cons, List.nodup_cons]
      refine ⟨?_, ih (b + 1)⟩
      intro hmem
      rcases List.mem_map.mp hmem with ⟨p, hp, hfst⟩
      have := scanWaiting_fst_ge rest (b + 1) p hp
      omega
    | val v => exact ih (b + 1)
    | hFulfilled id0 v => exact ih (b + 1)
    | hRejected id0 e => exact ih (b + 1)

/-- The handler ids of the scan subscriptions are exactly `pendingIds`. -/
theorem scanWaiting_map_snd : ∀ (inputs : List Input) (b : Nat),
    (scanWaiting b inputs).map Prod.snd = pendingIds inputs := by
  intro inputs
  induction inputs with
  | nil => intro b; rfl
  | cons x rest ih =>
    intro b
    cases x with
    | hPending id0 =>
      simp only [scanWaiting, List.map_cons]
      rw [ih (b + 1)]
      rfl
    | val v => exact ih (b + 1)
    | hFulfilled id0 v => exact ih (b + 1)
    | hRejected id0 e => exact ih (b + 1)

/-- Pointwise description of the scan's results-array writes: at an index
holding an already-available value the slot is written, elsewhere the
original entry is kept. -/
def fillSpec (inputs : List Input) (b j : Nat) (orig : Option (Option JSVal)) :
    Option (Option JSVal) :=
  if b ≤ j then
    match inputs.get? (j - b) with
    | some (.val v) => some (some v)
    | some (.hFulfilled _ v) => some (some v)
    | _ => orig
  else orig

theorem applyFills_getElem : ∀ (inputs : List Input) (rs : List (Option JSVal)) (b : Nat),
    b + inputs.length ≤ rs.length →
    ∀ j, (applyFills rs b inputs)[j]? = fillSpec inputs b j rs[j]? := by
  intro inputs
  induction inputs with
  | nil =>
    intro rs b _ j
    by_cases hb : b ≤ j <;> simp [applyFills, fillSpec, hb]
  | cons x rest ih =>
    intro rs b hlen j
    simp only [List.length_cons] at hlen
    cases x with
    | val v =>
      simp only [applyFills]
      rw [ih (rs.set b (some v)) (b + 1) (by simp only [List.length_set]; omega) j]
      by_cases hbj : b ≤ j
      · by_cases hj : j = b
        · subst hj
          simp only [fillSpec]
          rw [if_neg (by omega), if_pos (Nat.le_refl j)]
          rw [List.getElem?_set_self (by omega)]
          simp [Nat.sub_self]
        · have hbj1 : b + 1 ≤ j := by omega
          simp only [fillSpec]
          rw [if_pos hbj1, if_pos hbj]
          have hsub : j - b = (j - (b + 1)) + 1 := by omega
          rw [hsub, List.get?_cons_succ, List.getElem?_set_ne (by omega)]
      · simp only [fillSpec]
        rw [if_neg (by omega), if_neg hbj, List.getElem?_set_ne (by omega)]
    | hFulfilled id0 v =>
      simp only [applyFills]
      rw [ih (rs.set b (some v)) (b + 1) (by simp only [List.length_set]; omega) j]
      by_cases hbj : b ≤ j
      · by_cases hj : j = b
        · subst hj
          simp only [fillSpec]
          rw [if_neg (by omega), if_pos (Nat.le_refl j)]
          rw [List.getElem?_set_self (by omega)]
          simp [Nat.sub_self]
        · have hbj1 : b + 1 ≤ j := by omega
          simp only [fillSpec]
          rw [if_pos hbj1, if_pos hbj]
          have hsub : j - b = (j - (b + 1)) + 1 := by omega
          rw [hsub, List.get?_cons_succ, List.getElem?_set_ne (by omega)]
      · simp only [fillSpec]
        rw [if_neg (by omega), if_neg hbj, List.getElem?_set_ne (by omega)]
    | hPending id0 =>
      simp only [applyFills]
      rw [ih rs (b + 1) (by omega) j]
      by_cases hbj : b ≤ j
      · by_cases hj : j = b
        · subst hj
          simp only [fillSpec]
          rw [if_neg (by omega), if_pos (Nat.le_refl j)]
          simp [Nat.sub_self]
        · have hbj1 : b + 1 ≤ j := by omega
          simp only [fillSpec]
          rw [if_pos hbj1, if_pos hbj]
          have hsub : j - b = (j - (b + 1)) + 1 := by omega
          rw [hsub, List.get?_cons_succ]
      · simp only [fillSpec]
        rw [if_neg (by omega), if_neg hbj]
    | hRejected id0 e =>
      simp only [applyFills]
      rw [ih rs (b + 1) (by omega) j]
      by_cases hbj : b ≤ j
      · by_cases hj : j = b
        · subst hj
          simp only [fillSpec]
          rw [if_neg (by omega), if_pos (Nat.le_refl j)]
          simp [Nat.sub_self]
        · have hbj1 : b + 1 ≤ j := by omega
          simp only [fillSpec]
          rw [if_pos hbj1, if_pos hbj]
          have hsub : j - b = (j - (b + 1)) + 1 := by omega
          rw [hsub, List.get?_cons_succ]
      · simp only [fillSpec]
        rw [if_neg (by omega), if_neg hbj]

/-- Draining the pending handlers of an `All`: starting from a consistent
mid-run state, if each waiting handler is fulfilled exactly once (in any
order) with the value `env id` matching the expected final array, the
output fulfills with exactly that array. -/
theorem asyncDrain (env : Nat → JSVal) (final : List JSVal) :
    ∀ (events : List (Nat × Except JSVal JSVal)) (st : AllSt),
      st.dstate = DState.pending →
      st.pending = st.waiting.length →
      st.results.length = final.length →
      (st.waiting.map Prod.snd).Nodup →
      (st.waiting.map Prod.fst).Nodup →
      (∀ p ∈ st.waiting, final[p.1]? = some (env p.2)) →
      (∀ p ∈ st.waiting, st.results[p.1]? = some none) →
      (∀ j, j < final.length → (∀ eid, (j, eid) ∉ st.waiting) →
        st.results[j]? = (final[j]?).map some) →
      List.Perm (events.map Prod.fst) (st.waiting.map Prod.snd) →
      (∀ p ∈ events, p.2 = Except.ok (env p.1)) →
      st.waiting ≠ [] →
      (events.foldl (fun s e => settleEvent allFulfill s e.1 e.2) st).dstate
        = DState.fulfilled (.arr final) := by
  intro events
  induction events with
  | nil =>
    intro st _ _ _ _ _ _ _ _ hperm _ hne
    exfalso
    apply hne
    have h0 : st.waiting.map Prod.snd = [] := List.perm_nil.mp hperm.symm
    exact List.map_eq_nil_iff.mp h0
  | cons ev evs ih =>
    intro st hd hp hlen hsnodup hfnodup hfin hempty hfilled hperm hok hne
    obtain ⟨eid, out⟩ := ev
    have hout : out = Except.ok (env eid) := hok (eid, out) (List.mem_cons_self _ _)
    subst hout
    have hidmem : eid ∈ st.waiting.map Prod.snd := hperm.mem_iff.mp (by simp)
    obtain ⟨p, hpmem0, hpsnd⟩ := List.mem_map.mp hidmem
    obtain ⟨i, id2⟩ := p
    have hid2 : eid = id2 := hpsnd.symm
    subst hid2
    have hpmem : (i, eid) ∈ st.waiting := hpmem0
    have hfired := filter_snd_singleton st.waiting hsnodup i eid hpmem
    have hWfst := filter_not_snd_map_fst st.waiting hsnodup hfnodup i eid hpmem
    have hWsnd := filter_not_snd_map_snd st.waiting eid
    have hifst : i ∈ st.waiting.map Prod.fst := List.mem_map_of_mem Prod.fst hpmem
    have hWlen : (st.waiting.filter (fun p => p.2 != eid)).length
        = st.waiting.length - 1 := by
      have h1 : (st.waiting.filter (fun p => p.2 != eid)).length
          = ((st.waiting.map Prod.fst).filter (fun x => x != i)).length := by
        rw [← hWfst, List.length_map]
      rw [h1, ← List.Nodup.erase_eq_filter hfnodup i,
        List.length_erase_of_mem hifst, List.length_map]
    have hfin_i : final[i]? = some (env eid) := hfin (i, eid) hpmem
    have hi_lt : i < final.length := by
      by_contra hge
      rw [List.getElem?_eq_none (by omega)] at hfin_i
      cases hfin_i
    have hperm2 : List.Perm (evs.map Prod.fst)
        ((st.waiting.filter (fun p => p.2 != eid)).map Prod.snd) := by
      rw [hWsnd, ← List.Nodup.erase_eq_filter hsnodup eid]
      have h2 : List.Perm (st.waiting.map Prod.snd)
          (eid :: (st.waiting.map Prod.snd).erase eid) :=
        List.perm_cons_erase hidmem
      have h2a : List.Perm (eid :: evs.map Prod.fst) (st.waiting.map Prod.snd) := by
        simpa using hperm
      exact (h2a.trans h2).cons_inv
    have hWpos : 0 < st.waiting.length := List.length_pos.mpr hne
    have hstep : settleEvent allFulfill st eid (Except.ok (env eid))
        = fulfillAt allFulfill
            { st with waiting := st.waiting.filter (fun p => p.2 != eid) } i (env eid) := by
      simp only [settleEvent, hfired, List.foldl_cons, List.foldl_nil, settleOne,
        settleAtFulfilled]
    simp only [List.foldl_cons]
    rw [hstep]
    by_cases hWA : st.waiting.filter (fun p => p.2 != eid) = []
    · -- last pending handler: the fulfill fires and the output settles
      have hW1 : st.waiting.length = 1 := by
        have := hWlen
        rw [hWA] at this
        simp at this
        omega
      have hresults : st.results.set i (some (env eid)) = final.map some := by
        apply List.ext_getElem?
        intro j
        by_cases hj : j = i
        · subst hj
          rw [List.getElem?_set_self (by omega), List.getElem?_map, hfin_i]
          rfl
        · rw [List.getElem?_set_ne (fun h => hj h.symm)]
          by_cases hjlen : j < final.length
          · rw [List.getElem?_map]
            refine hfilled j hjlen ?_
            intro id2 hmem2
            by_cases hid2 : id2 = eid
            · subst hid2
              exact hj (pair_snd_unique st.waiting hsnodup j i id2 hmem2 hpmem)
            · have : (j, id2) ∈ st.waiting.filter (fun p => p.2 != eid) :=
                List.mem_filter.mpr ⟨hmem2, by simp [hid2]⟩
              rw [hWA] at this
              cases this
          · rw [List.getElem?_eq_none (by omega),
              List.getElem?_eq_none (by simp only [List.length_map]; omega)]
      have hevs : evs = [] := by
        rw [hWA] at hperm2
        have h5 : evs.map Prod.fst = [] := List.perm_nil.mp (by simpa using hperm2)
        exact List.map_eq_nil_iff.mp h5
      subst hevs
      simp only [List.foldl_nil, fulfillAt, check]
      have hc : (st.pending - 1 == 0) = true := by
        simp only [beq_iff_eq]
        omega
      rw [if_pos (by simp [hd, DState.isPendingB, hc])]
      simp only [hresults, allFulfill, DState.fulfillVal]
      have hmapid : (final.map some).map (fun o => o.getD JSVal.undef) = final := by
        have hcomp : ((fun o => Option.getD o JSVal.undef) ∘ some) = id :=
          funext fun v => rfl
        rw [List.map_map, hcomp, List.map_id]
      rw [hmapid, hd]
    · -- other handlers still pending: the check does not fire, recurse
      have hWApos : 0 < (st.waiting.filter (fun p => p.2 != eid)).length :=
        List.length_pos.mpr hWA
      simp only [fulfillAt, check]
      have hc : (st.pending - 1 == 0) = false := by
        simp only [beq_eq_false_iff_ne, ne_eq]
        omega
      rw [if_neg (by simp [hd, DState.isPendingB, hc])]
      refine ih _ hd ?_ ?_ ?_ ?_ ?_ ?_ ?_ hperm2 ?_ hWA
      · simp only [hp, hWlen]
      · simp only [List.length_set, hlen]
      · rw [hWsnd]
        exact (hsnodup).filter _
      · rw [hWfst]
        exact (hfnodup).filter _
      · intro q hq
        exact hfin q (List.mem_filter.mp hq).1
      · intro q hq
        have hq1 : q ∈ st.waiting := (List.mem_filter.mp hq).1
        have hqi : q.1 ≠ i := by
          intro hqi
          have h6 : q.1 ∈ (st.waiting.filter (fun p => p.2 != eid)).map Prod.fst :=
            List.mem_map_of_mem Prod.fst hq
          rw [hWfst] at h6
          have h7 := (List.mem_filter.mp h6).2
          rw [hqi] at h7
          simp at h7
        rw [List.getElem?_set_ne (fun h => hqi h.symm)]
        exact hempty q hq1
      · intro j hjlen hjnot
        by_cases hj : j = i
        · subst hj
          rw [List.getElem?_set_self (by omega), hfin_i]
          rfl
        · rw [List.getElem?_set_ne (fun h => hj h.symm)]
          refine hfilled j hjlen ?_
          intro id2 hmem2
          by_cases hid2 : id2 = eid
          · subst hid2
            exact hj (pair_snd_unique st.waiting hsnodup j i id2 hmem2 hpmem)
          · exact hjnot id2 (List.mem_filter.mpr ⟨hmem2, by simp [hid2]⟩)
      · intro q hq
        exact hok q (List.mem_cons_of_mem _ hq)

/-- The scan's writes never change the length of the results array. -/
theorem applyFills_length : ∀ (inputs : List Input) (rs : List (Option JSVal)) (b : Nat),
    (applyFills rs b inputs).length = rs.length := by
  intro inputs
  induction inputs with
  | nil => intro rs b; rfl
  | cons x rest ih =>
    intro rs b
    cases x with
    | val v => simp only [applyFills, ih, List.length_set]
    | hFulfilled id0 v => simp only [applyFills, ih, List.length_set]
    | hPending id0 => simp only [applyFills, ih]
    | hRejected id0 e => simp only [applyFills, ih]

/-- Membership in the scan's subscription list, stated at base 0. -/
theorem scanWaiting_zero_mem (inputs : List Input) (j id : Nat) :
    (j, id) ∈ scanWaiting 0 inputs ↔ inputs.get? j = some (.hPending id) := by
  rw [scanWaiting_mem inputs 0 j id]
  constructor
  · rintro ⟨k, hk, hkk⟩
    have hkj : k = j := by omega
    subst hkj
    exact hkk
  · intro hj
    exact ⟨j, by omega, hj⟩

/-- `true` on inputs whose handler is not pending: a plain value or a
settled thenable wins the race during the scan. -/
def Input.notPendingB : Input → Bool
  | .hPending _ => false
  | _ => true

/-- The handler identity of the input that wins the race during the scan:
`none` when the winner is a plain value (the code passes `void 0` to
`visitRemaining`) or when no input settles during the scan. -/
def winnerHId (inputs : List Input) : Option Nat :=
  match inputs.find? Input.notPendingB with
  | some (.hFulfilled id _) => some id
  | some (.hRejected id _) => some id
  | _ => none

/-- A pending head does not change the scan winner. -/
theorem winnerHId_cons_pending (id0 : Nat) (rest : List Input) :
    winnerHId (.hPending id0 :: rest) = winnerHId rest := by
  unfold winnerHId
  rw [List.find?_cons_of_neg _ (by simp [Input.notPendingB])]

/-- Continuations attached before the race loop runs stay attached. -/
theorem raceLoop_attached_mono : ∀ (rest : List Input) (i : Nat) (st : RaceSt)
    (q : Nat × RCont), q ∈ st.attached → q ∈ (raceLoop i rest st).attached := by
  intro rest
  induction rest with
  | nil => intro i st q hq; exact hq
  | cons x rest' ih =>
    intro i st q hq
    cases x with
    | val v => exact List.mem_append_left _ hq
    | hFulfilled id v => exact List.mem_append_left _ hq
    | hRejected id e => exact List.mem_append_left _ hq
    | hPending id => exact ih (i + 1) _ q (List.mem_append_left _ hq)

/-- `visitRemaining` attaches `silenceRejection` to every later input that
could still reject (pending or already rejected) and is not the winning
handler itself. -/
theorem visitFrom_mem : ∀ (rest : List Input) (w : Option Nat) (j m : Nat)
    (x : Input) (id : Nat),
    rest.get? m = some x →
    (x = .hPending id ∨ ∃ e, x = .hRejected id e) →
    w ≠ some id →
    (j + m, RCont.silence) ∈ visitFrom w j rest := by
  intro rest
  induction rest with
  | nil => intro w j m x id hx _ _; simp at hx
  | cons y rest' ih =>
    intro w j m x id hx hshape hw
    cases m with
    | zero =>
      simp only [List.get?_cons_zero, Option.some.injEq] at hx
      rw [Nat.add_zero]
      rcases hshape with h | ⟨e, h⟩
      · rw [h] at hx
        subst hx
        simp only [visitFrom]
        rw [if_neg (by simp [hw])]
        exact List.mem_cons_self _ _
      · rw [h] at hx
        subst hx
        simp only [visitFrom]
        rw [if_neg (by simp [hw])]
        exact List.mem_cons_self _ _
    | succ m' =>
      have hx' : rest'.get? m' = some x := hx
      have hres := ih w (j + 1) m' x id hx' hshape hw
      have harith : j + (m' + 1) = (j + 1) + m' := by omega
      rw [harith]
      cases y with
      | val v => exact hres
      | hFulfilled id0 v => exact hres
      | hRejected id0 e0 =>
        simp only [visitFrom]
        by_cases hww : (w == some id0) = true
        · rw [if_pos hww]; exact hres
        · rw [if_neg hww]; exact List.mem_cons_of_mem _ hres
      | hPending id0 =>
        simp only [visitFrom]
        by_cases hww : (w == some id0) = true
        · rw [if_pos hww]; exact hres
        · rw [if_neg hww]; exact List.mem_cons_of_mem _ hres

/-- Generalized over the race loop: any input occurring in the remaining
segment that is not already fulfilled and is not the scan winner's own
handler ends up with an attached rejection-consuming continuation. -/
theorem raceLoop_observes : ∀ (rest : List Input) (i : Nat) (st : RaceSt)
    (m : Nat) (x : Input) (id : Nat),
    rest.get? m = some x →
    (x = .hPending id ∨ ∃ e, x = .hRejected id e) →
    winnerHId rest ≠ some id →
    ∃ c, (i + m, c) ∈ (raceLoop i rest st).attached
      ∧ ∀ d h, (RCont.rejectedRun c d h).2 = true := by
  intro rest
  induction rest with
  | nil => intro i st m x id hx _ _; simp at hx
  | cons y rest' ih =>
    intro i st m x id hx hshape hw
    cases y with
    | val v =>
      cases m with
      | zero =>
        simp only [List.get?_cons_zero, Option.some.injEq] at hx
        rcases hshape with h | ⟨e, h⟩ <;> rw [h] at hx <;> simp at hx
      | succ m' =>
        have hx' : rest'.get? m' = some x := hx
        have harith : i + (m' + 1) = (i + 1) + m' := by omega
        refine ⟨.silence, ?_, fun d h => rfl⟩
        rw [harith]
        exact List.mem_append_right _
          (visitFrom_mem rest' none (i + 1) m' x id hx' hshape (by simp))
    | hFulfilled id0 v =>
      have hwin : winnerHId (Input.hFulfilled id0 v :: rest') = some id0 := rfl
      cases m with
      | zero =>
        simp only [List.get?_cons_zero, Option.some.injEq] at hx
        rcases hshape with h | ⟨e, h⟩ <;> rw [h] at hx <;> simp at hx
      | succ m' =>
        have hx' : rest'.get? m' = some x := hx
        have harith : i + (m' + 1) = (i + 1) + m' := by omega
        have hw' : (some id0 : Option Nat) ≠ some id := by
          rw [hwin] at hw
          exact hw
        refine ⟨.silence, ?_, fun d h => rfl⟩
        rw [harith]
        exact List.mem_append_right _
          (visitFrom_mem rest' (some id0) (i + 1) m' x id hx' hshape hw')
    | hRejected id0 e0 =>
      have hwin : winnerHId (Input.hRejected id0 e0 :: rest') = some id0 := rfl
      cases m with
      | zero =>
        simp only [List.get?_cons_zero, Option.some.injEq] at hx
        rcases hshape with h | ⟨e, h⟩
        · rw [h] at hx; simp at hx
        · rw [h] at hx
          injection hx with h1 h2
          exact absurd (hwin.trans (by rw [h1])) hw
      | succ m' =>
        have hx' : rest'.get? m' = some x := hx
        have harith : i + (m' + 1) = (i + 1) + m' := by omega
        have hw' : (some id0 : Option Nat) ≠ some id := by
          rw [hwin] at hw
          exact hw
        refine ⟨.silence, ?_, fun d h => rfl⟩
        rw [harith]
        exact List.mem_append_right _
          (visitFrom_mem rest' (some id0) (i + 1) m' x id hx' hshape hw')
    | hPending id0 =>
      have hwin : winnerHId (Input.hPending id0 :: rest') = winnerHId rest' :=
        winnerHId_cons_pending id0 rest'
      cases m with
      | zero =>
        refine ⟨.raceSelf, ?_, fun d h => rfl⟩
        rw [Nat.add_zero]
        exact raceLoop_attached_mono rest' (i + 1) _ _
          (List.mem_append_right _ (by simp))
      | succ m' =>
        have hx' : rest'.get? m' = some x := hx
        have harith : i + (m' + 1) = (i + 1) + m' := by omega
        rw [harith]
        exact ih (i + 1) _ m' x id hx' hshape (by rw [hwin] at hw; exact hw)

/-! ## Claim theorems -/

/-- **C9** (spec-modelled, `handlers.js` absent from the source tree): for
every Deferred handler, after the first successful resolve or reject (the
state is no longer pending), every subsequent `resolve`, `reject`, or
`become` leaves the handler's state — hence its eventual value or reason —
unchanged: settlement happens exactly once and is idempotent. -/
theorem deferred_settlement_idempotent (s : DState) (hs : s ≠ DState.pending)
    (v e : JSVal) (o : DState) :
    s.resolveVal v = s ∧ s.rejectVal e = s ∧ s.become o = s := by
  cases s with
  | pending => exact absurd rfl hs
  | fulfilled w => exact ⟨rfl, rfl, rfl⟩
  | rejected w => exact ⟨rfl, rfl, rfl⟩

/-- Witness for C9 at the concrete settled state `fulfilled 1`. -/
theorem deferred_settlement_idempotent_witness :
    DState.fulfilled (.num 1) ≠ DState.pending
    ∧ ((DState.fulfilled (.num 1)).resolveVal (.num 2) = DState.fulfilled (.num 1)
       ∧ (DState.fulfilled (.num 1)).rejectVal (.num 3) = DState.fulfilled (.num 1)
       ∧ (DState.fulfilled (.num 1)).become (DState.rejected (.num 4)) = DState.fulfilled (.num 1)) :=
  ⟨fun h => DState.noConfusion h,
   deferred_settlement_idempotent (DState.fulfilled (.num 1)) (fun h => DState.noConfusion h)
     (.num 2) (.num 3) (DState.rejected (.num 4))⟩

/-- **C6**: the `Then` continuation dispatches `onFulfilled` on a fulfilled
source and `onRejected` on a rejected source (both via `runAction` on the
fresh pending Deferred); when the applicable callback is a function `g`, it
is invoked with the settled value/reason (`handler.value`) in a guarded
call — normal return `x` resolves the new Deferred with `x`, a thrown `e`
rejects it with `e`; when the callback is missing, the settlement is
forwarded unchanged to the new Deferred via `become`. -/
theorem then_callback_semantics (t : ThenC) (g : Fn) (h : DState) :
    t.fulfilledHook h .pending = runAction t.f h .pending
    ∧ t.rejectedHook h .pending = runAction t.r h .pending
    ∧ runAction (some g) h .pending =
        (match g h.value with
         | .ok x => (DState.fulfilled x, true)
         | .error e => (DState.rejected e, true))
    ∧ runAction none h .pending = (h, false) := by
  refine ⟨rfl, rfl, ?_, rfl⟩
  cases hg : g h.value <;>
    simp [runAction, hg, DState.resolveVal, DState.rejectVal]

/-- **C10**: the `rejected` hook of a `Then(f, r, next)` continuation
reports the rejection as consumed (returns `true`) exactly when `r` is a
function; when `r` is not a function it returns `false` after forwarding. -/
theorem then_rejected_consumed_iff_callback (f r : Option Fn) (h next : DState) :
    ((ThenC.mk f r).rejectedHook h next).2 = r.isSome := by
  cases r with
  | none => rfl
  | some g => cases hg : g h.value <;> simp [ThenC.rejectedHook, runAction, hg]

/-- **C7**: when the source handler is already settled and the callback
relevant to its state is not a function, `then(f, r, h)` returns the
source handler itself, with no new Deferred allocated; in particular
`p.then()` with no arguments on a settled promise forwards the identical
handler. -/
theorem then_settled_shortcircuit (f r : Option Fn) (h : DState)
    (hs : (h.isFulfilledB = true ∧ f = none) ∨ (h.isRejectedB = true ∧ r = none)) :
    thenImpl f r h = .reused h := by
  rcases hs with ⟨hf, rfl⟩ | ⟨hr, rfl⟩
  · simp [thenImpl, hf]
  · simp [thenImpl, hr]

/-- Witness for C7: `p.then()` (no callbacks) on a fulfilled handler
returns that very handler. -/
theorem then_settled_shortcircuit_witness :
    ((DState.fulfilled (.num 5)).isFulfilledB = true ∧ (none : Option Fn) = none)
    ∧ thenImpl none none (DState.fulfilled (.num 5)) = .reused (DState.fulfilled (.num 5)) :=
  ⟨⟨rfl, rfl⟩,
   then_settled_shortcircuit none none (DState.fulfilled (.num 5)) (Or.inl ⟨rfl, rfl⟩)⟩

/-- **C2, counterexample**: a non-null object that is not iterable passes
the `typeof promises !== 'object' || promises === null` guard, and the
`for..of` in the `All`/`Race` constructor then throws a `TypeError`
synchronously out of `all()`/`race()` — refuting the claim that the
combinator entry points never throw and always return a rejected promise
for non-iterable input. -/
theorem combinator_nonIterableObject_throws :
    allJS .nonIterableObj = .throws ∧ raceJS .nonIterableObj = .throws :=
  ⟨rfl, rfl⟩

/-- **C2, amended**: `null` and every value whose `typeof` is not
`'object'` (non-object primitives and functions) make `all`/`race` return
an immediately rejected promise carrying the guard's `TypeError`, without
throwing; but a non-null non-iterable object slips past the guard and
causes a synchronous `TypeError` to be thrown from the constructor. -/
theorem combinator_guard_behavior :
    allJS .jsNull = .rejectedTypeError "non-iterable passed to all()"
    ∧ (∀ v, allJS (.primitive v) = .rejectedTypeError "non-iterable passed to all()")
    ∧ allJS .func = .rejectedTypeError "non-iterable passed to all()"
    ∧ raceJS .jsNull = .rejectedTypeError "non-iterable passed to race()"
    ∧ (∀ v, raceJS (.primitive v) = .rejectedTypeError "non-iterable passed to race()")
    ∧ raceJS .func = .rejectedTypeError "non-iterable passed to race()"
    ∧ allJS .nonIterableObj = .throws
    ∧ raceJS .nonIterableObj = .throws :=
  ⟨rfl, fun _ => rfl, rfl, rfl, fun _ => rfl, rfl, rfl, rfl⟩

/-- **C8**: `race` applied to an empty iterable returns the shared
`never()` promise, whose handler is permanently pending and never invokes
any continuation registered on it (the `Never` internals are modelled from
the spec, `handlers.js` being absent from the source tree). -/
theorem race_empty_is_never :
    raceJS (.iterable []) = .neverP
    ∧ neverState = .pending
    ∧ (∀ ks, neverInvoked ks = []) :=
  ⟨rfl, rfl, fun _ => rfl⟩

/-- **C3, counterexample**: for `all([<rejected e>, <rejected f>])` the
scan hits the first rejected input, sets `pending = 0` and breaks, so
input index 1 — a rejected input occurring after the first rejection — is
never visited and no continuation is attached to anything
(`waiting = []`): the remaining input is *not* drained/observed,
refuting the claim. -/
theorem all_sync_rejection_not_drained :
    (resolveAll allFulfill [.hRejected 0 (.str "e"), .hRejected 1 (.str "f")]).dstate
        = .rejected (.str "e")
    ∧ (resolveAll allFulfill [.hRejected 0 (.str "e"), .hRejected 1 (.str "f")]).visited = [0]
    ∧ (resolveAll allFulfill [.hRejected 0 (.str "e"), .hRejected 1 (.str "f")]).waiting = [] :=
  ⟨rfl, rfl, rfl⟩

/-- **C3, amended**: `all(inputs)` rejects with the reason of the first
rejected input the scan encounters (after a rejection-free prefix), and
pending inputs *before* it keep their `SettleAt` continuations (whose
rejected hooks return `true`, i.e. they observe later rejections); but the
scan breaks at the rejection, so inputs *after* the rejecting element are
never visited (only indices `0..k` appear in `visited`) and get no
continuation — their later rejections are not drained. -/
theorem all_first_scan_rejection (pre post : List Input) (id : Nat) (e : JSVal)
    (hnr : ∀ x ∈ pre, x.isRej = false) :
    resolveAll allFulfill (pre ++ .hRejected id e :: post) =
      { pending := 0
        results := applyFills (List.replicate (pre ++ .hRejected id e :: post).length none) 0 pre
        waiting := scanWaiting 0 pre
        visited := idxFrom 0 (pre.length + 1)
        dstate := DState.rejected e }
    ∧ (∀ st e2, (settleAtRejected st e2).2 = true) := by
  constructor
  · unfold resolveAll
    rw [scanLoop_first_reject allFulfill pre _ 0 id e post hnr rfl (by simp; omega)]
    simp [check, DState.isPendingB]
  · intro st e2; rfl

/-- Witness for C3 (amended) at `all([<pending #3>, <rejected "e">,
<rejected "f">])`: rejects with `"e"`, visits only indices 0 and 1, and
only the pending input at index 0 has a continuation attached. -/
theorem all_first_scan_rejection_witness :
    (∀ x ∈ [Input.hPending 3], x.isRej = false)
    ∧ (resolveAll allFulfill [.hPending 3, .hRejected 7 (.str "e"), .hRejected 8 (.str "f")] =
        { pending := 0
          results := [none, none, none]
          waiting := [(0, 3)]
          visited := [0, 1]
          dstate := DState.rejected (.str "e") }
       ∧ ∀ st e2, (settleAtRejected st e2).2 = true) :=
  ⟨by decide,
   all_first_scan_rejection [.hPending 3] [.hRejected 8 (.str "f")] 7 (.str "e") (by decide)⟩

/-- **C4**: for every input sequence to `race(inputs)`, every non-winning
input that could still reject — i.e. any input that is pending or already
rejected and is not the winning handler itself — has a continuation
attached by the scan whose `rejected` hook returns `true` (consumes the
rejection): either `silenceRejection` via `visitRemaining` when a winner
is found during the scan, or the `Race` deferred itself (whose `rejected`
hook does `become` and returns `true`) when the input was pending.  This
covers both the scan-winner case and the case where the winner is a
pending input that settles later (then every input got the `Race`
continuation during the scan); a non-winning input that is already
fulfilled gets no continuation, but it can never reject.  (Inputs that
already settled cannot later reject, so observed-but-ignored =
rejected-hook-returns-true here.) -/
theorem race_observes_nonwinners (inputs : List Input) (j id : Nat) (x : Input)
    (hx : inputs.get? j = some x)
    (hshape : x = .hPending id ∨ ∃ e, x = .hRejected id e)
    (hw : winnerHId inputs ≠ some id) :
    ∃ c, (j, c) ∈ (raceScan inputs).attached
      ∧ ∀ d h, (RCont.rejectedRun c d h).2 = true := by
  have hmain := raceLoop_observes inputs 0 { dstate := .pending, attached := [] }
    j x id hx hshape hw
  simpa [raceScan] using hmain

/-- Witness for C4: in `race([<rejected "w" #9>, <pending #5>])` the
rejected input at index 0 wins the scan; the pending input at index 1 is
not the winner and gets a rejection-consuming (silencing) continuation. -/
theorem race_observes_nonwinners_witness :
    ∃ c, (1, c) ∈ (raceScan [.hRejected 9 (.str "w"), .hPending 5]).attached
      ∧ ∀ d h, (RCont.rejectedRun c d h).2 = true :=
  race_observes_nonwinners [.hRejected 9 (.str "w"), .hPending 5] 1 5 (.hPending 5)
    rfl (Or.inl rfl) (by decide)

/-- **C5**: for every input sequence of promises and/or plain values in
which no input rejects, once every input has fulfilled — the pending
inputs (distinct promises) settling in an arbitrary order given by
`events` — `all(inputs)` fulfills with the ordered sequence of all input
results in input order: the order of completion is irrelevant to the
output.  `all([])` (with `events = []`) is the special case fulfilling
with the empty sequence. -/
theorem all_fulfills_in_order (inputs : List Input) (env : Nat → JSVal)
    (events : List (Nat × Except JSVal JSVal))
    (hnr : ∀ x ∈ inputs, x.isRej = false)
    (hnd : (pendingIds inputs).Nodup)
    (hperm : List.Perm (events.map Prod.fst) (pendingIds inputs))
    (hok : ∀ p ∈ events, p.2 = Except.ok (env p.1)) :
    (runAllEvents allFulfill inputs events).dstate
      = DState.fulfilled (.arr (inputs.map (finalVal env))) := by
  have hset : ∀ rs, (allFulfill DState.pending rs).isPendingB = false := fun rs => rfl
  unfold runAllEvents
  rw [resolveAll_noreject allFulfill inputs hnr hset]
  have hWsnd : (scanWaiting 0 inputs).map Prod.snd = pendingIds inputs :=
    scanWaiting_map_snd inputs 0
  have hreslen : (applyFills (List.replicate inputs.length none) 0 inputs).length
      = (inputs.map (finalVal env)).length := by
    rw [applyFills_length, List.length_replicate, List.length_map]
  have hget : ∀ j, (applyFills (List.replicate inputs.length none) 0 inputs)[j]?
      = fillSpec inputs 0 j ((List.replicate inputs.length (none : Option JSVal))[j]?) :=
    applyFills_getElem inputs _ 0 (by simp)
  have hfinget : ∀ j, (inputs.map (finalVal env))[j]? = (inputs[j]?).map (finalVal env) :=
    fun j => List.getElem?_map (finalVal env) inputs j
  by_cases hW0 : scanWaiting 0 inputs = []
  · have hev0 : events = [] := by
      rw [← hWsnd, hW0] at hperm
      have h5 : events.map Prod.fst = [] := List.perm_nil.mp (by simpa using hperm)
      exact List.map_eq_nil_iff.mp h5
    subst hev0
    simp only [List.foldl_nil]
    rw [if_pos (by rw [hW0]; rfl)]
    have hresults : applyFills (List.replicate inputs.length none) 0 inputs
        = (inputs.map (finalVal env)).map some := by
      apply List.ext_getElem?
      intro j
      rw [hget j]
      by_cases hjn : j < inputs.length
      · cases hx : inputs.get? j with
        | none =>
          rw [List.get?_eq_none] at hx
          omega
        | some x =>
          have hxnr := hnr x (List.get?_mem hx)
          cases x with
          | hPending id0 =>
            exfalso
            have hmem := (scanWaiting_zero_mem inputs j id0).mpr hx
            rw [hW0] at hmem
            cases hmem
          | hRejected id0 e0 => simp [Input.isRej] at hxnr
          | val v =>
            simp only [fillSpec, Nat.sub_zero, hx, Nat.zero_le, if_true]
            rw [List.getElem?_map, hfinget j, ← List.get?_eq_getElem?, hx]
            rfl
          | hFulfilled id0 v =>
            simp only [fillSpec, Nat.sub_zero, hx, Nat.zero_le, if_true]
            rw [List.getElem?_map, hfinget j, ← List.get?_eq_getElem?, hx]
            rfl
      · have hj1 : inputs.get? j = none := List.get?_eq_none.mpr (by omega)
        simp only [fillSpec, Nat.sub_zero, hj1, Nat.zero_le, if_true]
        have h1 : ((inputs.map (finalVal env)).map some)[j]? = none :=
          List.getElem?_eq_none (by simp only [List.length_map]; omega)
        have h2 : (List.replicate inputs.length (none : Option JSVal))[j]? = none :=
          List.getElem?_eq_none (by simp only [List.length_replicate]; omega)
        rw [h1, h2]
    rw [hresults]
    have hmapid : ((inputs.map (finalVal env)).map some).map (fun o => o.getD JSVal.undef)
        = inputs.map (finalVal env) := by
      have hcomp : ((fun o => Option.getD o JSVal.undef) ∘ some) = id := funext fun v => rfl
      rw [List.map_map, hcomp, List.map_id]
    simp only [allFulfill, DState.fulfillVal, hmapid]
  · rw [if_neg (fun hcon => hW0 (List.length_eq_zero.mp hcon))]
    refine asyncDrain env (inputs.map (finalVal env)) events _ rfl rfl hreslen ?_ ?_ ?_ ?_ ?_ ?_ hok hW0
    · show ((scanWaiting 0 inputs).map Prod.snd).Nodup
      rw [hWsnd]
      exact hnd
    · exact scanWaiting_fst_nodup inputs 0
    · intro p hpW
      obtain ⟨j, id0⟩ := p
      have hx := (scanWaiting_zero_mem inputs j id0).mp hpW
      show (inputs.map (finalVal env))[j]? = some (env id0)
      rw [hfinget j, ← List.get?_eq_getElem?, hx]
      rfl
    · intro p hpW
      obtain ⟨j, id0⟩ := p
      have hx := (scanWaiting_zero_mem inputs j id0).mp hpW
      have hjn : j < inputs.length := by
        by_contra hge
        rw [List.get?_eq_none.mpr (by omega)] at hx
        cases hx
      show (applyFills (List.replicate inputs.length none) 0 inputs)[j]? = some none
      rw [hget j]
      simp only [fillSpec, Nat.sub_zero, hx, Nat.zero_le, if_true]
      rw [List.getElem?_replicate, if_pos hjn]
    · intro j hjlen hjno
      have hjn : j < inputs.length := by
        simp only [List.length_map] at hjlen
        omega
      show (applyFills (List.replicate inputs.length none) 0 inputs)[j]?
        = ((inputs.map (finalVal env))[j]?).map some
      cases hx : inputs.get? j with
      | none =>
        rw [List.get?_eq_none] at hx
        omega
      | some x =>
        have hxnr := hnr x (List.get?_mem hx)
        cases x with
        | hPending id0 =>
          exact absurd ((scanWaiting_zero_mem inputs j id0).mpr hx) (hjno id0)
        | hRejected id0 e0 => simp [Input.isRej] at hxnr
        | val v =>
          rw [hget j]
          simp only [fillSpec, Nat.sub_zero, hx, Nat.zero_le, if_true]
          rw [hfinget j, ← List.get?_eq_getElem?, hx]
          rfl
        | hFulfilled id0 v =>
          rw [hget j]
          simp only [fillSpec, Nat.sub_zero, hx, Nat.zero_le, if_true]
          rw [hfinget j, ← List.get?_eq_getElem?, hx]
          rfl
    · show List.Perm (events.map Prod.fst) ((scanWaiting 0 inputs).map Prod.snd)
      rw [hWsnd]
      exact hperm

/-- Witness for C5: `all([1, <pending #7>, <fulfilled 2>])` where the
pending promise later fulfills with `9`: the output fulfills with
`[1, 9, 2]` in input order. -/
theorem all_fulfills_in_order_witness :
    (runAllEvents allFulfill [.val (.num 1), .hPending 7, .hFulfilled 3 (.num 2)]
        [(7, .ok (.num 9))]).dstate
      = DState.fulfilled (.arr [.num 1, .num 9, .num 2]) :=
  all_fulfills_in_order [.val (.num 1), .hPending 7, .hFulfilled 3 (.num 2)]
    (fun _ => .num 9) [(7, .ok (.num 9))]
    (by decide) (by decide) (by decide)
    (by
      intro p hp
      simp only [List.mem_singleton] at hp
      subst hp
      rfl)

/-- **C1** (code bug): `merge(f, ...args)` with every argument an
immediate value does **not** fulfill with `f` applied to those values.
`Merge.fulfill` runs during `super(promises)` — before `this.f = f` is
assigned in the `Merge` constructor — so `this.f.apply(this.c, results)`
throws a `TypeError` that the guard converts into a rejection: here
`merge(f, 1, 2)` (with `f` total, e.g. returning its argument array)
rejects with a `TypeError` instead of fulfilling with `f(1, 2)`. -/
theorem merge_immediate_args_rejects_typeerror :
    (runMerge (fun vs => Except.ok (.arr vs)) [.val (.num 1), .val (.num 2)] []).dstate
      = .rejected (.typeError "this.f is undefined") := rfl

end Creed
